import Mathlib

/-!
Verification development for the persistence and data-integrity subsystem of
the angles-proto repository (src/utils/crypto.js storage module, src/App.jsx,
src/hooks/useDebouncedStorage.js, src/utils/helpers.js).

Modelling conventions (shallow embedding):
* Parsed JSON documents are values of the inductive type `JsonVal`.
  JavaScript numbers are modelled as rationals (`ℚ`); `JSON.parse` can only
  produce finite numbers, so NaN/Infinity never occur in parsed documents,
  and the string parse path models non-numeric input by `Option.none`.
* JavaScript `undefined` (absent object field) is modelled by `Option.none`
  of a field lookup.
* `crypto.randomUUID()` (`cryptoRandomId` in src/utils/helpers.js) is
  modelled by an explicit identifier supply `gen : ℕ → String` together
  with a counter threaded through the computation; each call to the
  generator consumes one counter position.
* `localeCompare(..., { sensitivity: "base" })` is modelled as
  case-insensitive lexicographic comparison (compare the lowercased
  strings); JavaScript's `Array.prototype.sort` is stable, modelled by
  stable insertion sort.
* `String.prototype.trim` / `toLowerCase` are modelled on the ASCII
  fragment actually exercised by the data.
-/

/-- Parsed JSON value (the argument type of `migrateAndSanitize`). -/
inductive JsonVal where
  | null : JsonVal
  | bool (b : Bool) : JsonVal
  | num (q : ℚ) : JsonVal
  | str (s : String) : JsonVal
  | arr (elems : List JsonVal) : JsonVal
  | obj (fields : List (String × JsonVal)) : JsonVal

namespace AnglesProto

/-- JavaScript truthiness of a (JSON-representable) value. -/
def jsTruthy : JsonVal → Bool
  | .null => false
  | .bool b => b
  | .num q => q ≠ 0
  | .str s => s ≠ ""
  | .arr _ => true
  | .obj _ => true

/-- Is the value of JavaScript `typeof` "object" and truthy, i.e. an array
or a plain object (`null` is excluded by truthiness)? -/
def jsIsObjectLike : JsonVal → Bool
  | .arr _ => true
  | .obj _ => true
  | _ => false

/-- Property lookup `v?.[k]` / `v[k]`: object field lookup; arrays expose
their elements under their decimal index keys; every other receiver yields
`undefined` (`none`). -/
def jsGet : JsonVal → String → Option JsonVal
  | .obj kvs, k => kvs.lookup k
  | .arr l, k => (l.enum.find? (fun p => toString p.1 = k)).map (·.2)
  | _, _ => none

/-- The whitespace characters recognised by the model of
`String.prototype.trim` and of the regular expression `\s`. -/
def isWsChar (c : Char) : Bool :=
  c = ' ' || c = '\t' || c = '\n' || c = '\r'

/-- `String.prototype.trim` on the character list. -/
def jsTrimList (l : List Char) : List Char :=
  ((l.dropWhile isWsChar).reverse.dropWhile isWsChar).reverse

mutual

/-- `.replace(/\s+/g, " ")`: every maximal run of whitespace becomes a
single space. -/
def collapseWs : List Char → List Char
  | [] => []
  | c :: cs =>
    if isWsChar c then ' ' :: collapseAfterWs cs else c :: collapseWs cs
termination_by structural l => l

/-- Inside a whitespace run whose single replacement space was already
emitted: skip further whitespace. -/
def collapseAfterWs : List Char → List Char
  | [] => []
  | c :: cs => if isWsChar c then collapseAfterWs cs else c :: collapseWs cs
termination_by structural l => l

end

/-- `s.trim().replace(/\s+/g, " ")` on strings. -/
def jsTrimCollapse (s : String) : String :=
  ⟨collapseWs (jsTrimList s.data)⟩

/-- `s.trim()` on strings. -/
def jsTrim (s : String) : String := ⟨jsTrimList s.data⟩

/-- Decimal rendering of a JavaScript number. Integral values render
exactly as JavaScript does; the rendering of non-integral values is an
uninterpreted stand-in (no claim depends on it: the only consumers feed the
result back into membership checks that are symmetric in this encoding). -/
def jsNumToString (q : ℚ) : String :=
  if q.den = 1 then toString q.num
  else toString q.num ++ "." ++ toString q.den

mutual

/-- JavaScript `String(v)` conversion. -/
def jsToString : JsonVal → String
  | .null => "null"
  | .bool true => "true"
  | .bool false => "false"
  | .num q => jsNumToString q
  | .str s => s
  | .arr l => jsArrToString l
  | .obj _ => "[object Object]"
termination_by structural v => v

/-- `Array.prototype.toString`: elements joined with ",", with `null`
elements rendered as the empty string. -/
def jsArrToString : List JsonVal → String
  | [] => ""
  | [.null] => ""
  | [x] => jsToString x
  | .null :: xs => "," ++ jsArrToString xs
  | x :: xs => jsToString x ++ "," ++ jsArrToString xs
termination_by structural l => l

end

/-- Digits to a natural number, most significant first. -/
def digitsToNat (l : List Char) : ℕ :=
  l.foldl (fun n c => 10 * n + (c.toNat - '0'.toNat)) 0

/-- Model of JavaScript `Number(string)` on the decimal fragment:
leading/trailing whitespace is ignored, the empty (or all-whitespace)
string is 0, an optional sign precedes digits with an optional fractional
part; anything else (including the exponent/hex/Infinity forms, which no
claim exercises) is NaN, modelled as `none`. -/
def parseJsNum (s : String) : Option ℚ :=
  let l := jsTrimList s.data
  if l = [] then some 0
  else
    let signAndRest : ℤ × List Char :=
      match l with
      | '-' :: t => (-1, t)
      | '+' :: t => (1, t)
      | _ => (1, l)
    let sign := signAndRest.1
    let l1 := signAndRest.2
    let intPart := l1.takeWhile Char.isDigit
    let rest := l1.dropWhile Char.isDigit
    match rest with
    | [] =>
      if intPart = [] then none
      else some (mkRat (sign * digitsToNat intPart) 1)
    | '.' :: frac =>
      let fracD := frac.takeWhile Char.isDigit
      if frac.dropWhile Char.isDigit ≠ [] then none
      else if intPart = [] ∧ fracD = [] then none
      else some (mkRat
        (sign * (digitsToNat intPart * 10 ^ fracD.length + digitsToNat fracD))
        (10 ^ fracD.length))
    | _ => none

/-- `String.prototype.replace(",", ".")`: only the first occurrence is
replaced. -/
def replaceFirstComma : List Char → List Char
  | [] => []
  | c :: cs => if c = ',' then '.' :: cs else c :: replaceFirstComma cs

/-- `Math.max` on two (finite) numbers. -/
def jsMax (a b : ℚ) : ℚ := if a ≤ b then b else a

/-- `Math.min` on two (finite) numbers. -/
def jsMin (a b : ℚ) : ℚ := if b ≤ a then b else a

/-- `clamp` from src/utils/helpers.js: `Math.max(a, Math.min(b, n))`. -/
def clamp (n a b : ℚ) : ℚ := jsMax a (jsMin b n)

/-- `normalizeHoldNameSafe` from src/utils/helpers.js:
`String(s || "").trim().replace(/\s+/g, " ")`, applied to a possibly
absent (`undefined`) value. -/
def normalizeHoldNameSafe (v : Option JsonVal) : String :=
  let s : String :=
    match v with
    | none => ""
    | some w => if jsTruthy w then jsToString w else ""
  jsTrimCollapse s

/-- `String.prototype.toLowerCase` (character-wise, on the ASCII
fragment). -/
def jsToLower (s : String) : String := ⟨s.data.map Char.toLower⟩

/-- `s.startsWith(pre)`. -/
def jsStartsWith (pre s : String) : Bool := pre.data.isPrefixOf s.data

/-- The comparison relation realised by
`a.localeCompare(b, undefined, { sensitivity: "base" }) <= 0`,
modelled as case-insensitive lexicographic order. -/
def holdLe (a b : String) : Prop := (jsToLower a).data ≤ (jsToLower b).data

instance : DecidableRel holdLe := fun a b =>
  inferInstanceAs (Decidable ((jsToLower a).data ≤ (jsToLower b).data))

instance : IsTotal String holdLe :=
  ⟨fun a b => le_total (jsToLower a).data (jsToLower b).data⟩

instance : IsTrans String holdLe := ⟨fun _ _ _ h1 h2 => le_trans h1 h2⟩

/-- `sortHolds` from src/utils/helpers.js: stable sort by base-sensitivity
locale comparison. -/
def sortHolds (l : List String) : List String := l.insertionSort holdLe

/-- The case-insensitive first-occurrence-wins deduplication loop inside
`sanitizeHoldList` (the `seen` set accumulates lowercased keys). -/
def dedupCIGo (seen : List String) : List String → List String
  | [] => []
  | h :: t =>
    if jsToLower h ∈ seen then dedupCIGo seen t
    else h :: dedupCIGo (jsToLower h :: seen) t

def dedupCI (l : List String) : List String := dedupCIGo [] l

/-- `Array.isArray(v) ? v : []`. -/
def jsArrElems : JsonVal → List JsonVal
  | .arr l => l
  | _ => []

/-- `sanitizeHoldList` from src/utils/crypto.js (storage module):
array-or-empty, map through `normalizeHoldNameSafe`, drop falsy (empty)
results, deduplicate case-insensitively (first wins), sort. -/
def sanitizeHoldList (holds : JsonVal) : List String :=
  let cleaned := ((jsArrElems holds).map
    (fun x => normalizeHoldNameSafe (some x))).filter (fun s => s ≠ "")
  sortHolds (dedupCI cleaned)

/-- An Angle's category tag (`saw` field): exactly "main" or "stefan". -/
inductive Saw where
  | main : Saw
  | stefan : Saw
deriving DecidableEq, Repr

def Saw.toStr : Saw → String
  | .main => "main"
  | .stefan => "stefan"

/-- A sanitized Angle record, as returned by `sanitizeAngle`:
`{ id, hold, value, saw, ...(drawing ? { drawing } : {}) }`. -/
structure Angle where
  id : String
  hold : String
  value : ℚ
  saw : Saw
  drawing : Option String
deriving DecidableEq, Repr

/-- A Canonical Snapshot, as returned by `migrateAndSanitize`:
`{ version, holds, angles, holdImages }`. The hold-images map is kept as an
association list in insertion order (the order of `holds`). -/
structure Snapshot where
  version : ℕ
  holds : List String
  angles : List Angle
  holdImages : List (String × String)
deriving DecidableEq, Repr

def LS_VERSION : ℕ := 1

def MAX_BACKUPS : ℕ := 5

def MAX_STORAGE_SIZE_KB : ℕ := 4 * 1024

/-- The value normalization of `sanitizeAngle` (src/utils/crypto.js lines
38-40): a number is used directly, anything else is string-converted with
the first "," turned into "." and parsed; a non-finite (failed) parse
yields 0, a finite value is clamped to [0, 90]. -/
def normalizeAngleValue (rawv : Option JsonVal) : ℚ :=
  let numv : Option ℚ := match rawv with
    | some (.num q) => some q
    | _ =>
      let s : String := match rawv with
        | none => ""
        | some .null => ""
        | some v => jsToString v
      parseJsNum ⟨replaceFirstComma s.data⟩
  match numv with
  | some q => clamp q 0 90
  | none => 0

/-- `sanitizeAngle` from src/utils/crypto.js (storage module). The
identifier supply `gen` together with the counter `ctr` models
`cryptoRandomId()`; the returned counter records how many fresh ids were
consumed (the id is computed before the hold-membership check, exactly as
in the source). -/
def sanitizeAngle (gen : ℕ → String) (ctr : ℕ) (a : JsonVal)
    (holdsSet : List String) : Option Angle × ℕ :=
  let hold := normalizeHoldNameSafe (jsGet a "hold")
  let saw : Saw := match jsGet a "saw" with
    | some (.str "stefan") => .stefan
    | _ => .main
  let value : ℚ := normalizeAngleValue (jsGet a "value")
  let idAndCtr : String × ℕ := match jsGet a "id" with
    | some (.str s) => if jsTrim s ≠ "" then (s, ctr) else (gen ctr, ctr + 1)
    | _ => (gen ctr, ctr + 1)
  let drawing : Option String := match jsGet a "drawing" with
    | some (.str s) => if jsStartsWith "data:image/" s then some s else none
    | _ => none
  if hold = "" ∨ hold ∉ holdsSet then (none, idAndCtr.2)
  else (some ⟨idAndCtr.1, hold, value, saw, drawing⟩, idAndCtr.2)

/-- `unwrapImportedDb` from src/utils/crypto.js: accepts a raw db or a
wrapper `{ data: {...} }`; primitives pass through unchanged. -/
def unwrapImportedDb (parsed : JsonVal) : JsonVal :=
  if ¬ jsIsObjectLike parsed then parsed
  else
    match jsGet parsed "data" with
    | some d => if jsIsObjectLike d then d else parsed
    | none => parsed

/-- `DEFAULT_HOLDS` from src/utils/helpers.js / src/constants/defaults. -/
def DEFAULT_HOLDS : List String := [
  "Anton", "Austin", "Amon", "Asteca", "Avalon", "Avalon Flat", "Avalon SuperFlat",
  "Base 10", "Base 15", "Base Zero", "Boomerang", "Chava", "Circo", "Classica",
  "Concord", "Crack", "Crack Midle", "Crack ending 30", "Crack ending 45",
  "Cuneo", "Cuneo Lungo", "Delta", "Etna", "Flat 80", "Flat 90", "Fratelli",
  "French fries", "Fresco 10", "Fresco 20", "Fresco 30", "Fuji", "Gamma 3",
  "Gamma 3 (Large)", "Gamma 4", "Gamma 4 (30)", "Gamma 4 (Large)",
  "Gamma 4 (40)", "Gobba", "Gradino", "Half Chava", "Half Circo", "Half Lancia",
  "Inca", "Katla", "Lancia", "Lancia Flat", "Leon", "Lipari", "Mago (Large)",
  "Mago - set A", "Mago - set B", "Mago medium \"A\"", "Mago medium \"B\"",
  "Parapetto 60", "Parapetto 70", "Parapetto 80", "Rampa", "Rampa wide",
  "Rumba High", "Rumba Low", "Salina", "Samba", "Sparo", "Sparo Super Flat",
  "Sparo Flat", "Splash", "Square", "Square Flat", "Square SuperFlat",
  "Tufa", "Ustica", "WI-FI 70", "WI-FI 80"]

def defaultHoldsJson : JsonVal := .arr (DEFAULT_HOLDS.map .str)

/-- One raw default angle as a parsed-object value. In the source the ids
are drawn from `cryptoRandomId()` once at module load; they are modelled
here as fixed, distinct, non-empty strings. -/
def defaultAngleJson (id hold : String) (value : ℚ) (saw : String) : JsonVal :=
  .obj [("id", .str id), ("hold", .str hold), ("value", .num value),
    ("saw", .str saw)]

/-- `DEFAULT_ANGLES` from src/utils/helpers.js / src/constants/defaults. -/
def DEFAULT_ANGLES : List JsonVal := [
  defaultAngleJson "default-id-1" "Austin" (mkRat 282 10) "main",
  defaultAngleJson "default-id-2" "Avalon Flat" 65 "main",
  defaultAngleJson "default-id-3" "Austin" (mkRat 653 10) "main",
  defaultAngleJson "default-id-4" "Avalon SuperFlat" 30 "stefan",
  defaultAngleJson "default-id-5" "Amon" 50 "stefan"]

/-- The angle loop inside `migrateAndSanitize`: sanitize each raw angle,
drop rejects, and regenerate the id of a later-seen duplicate (the `ids`
accumulator is the `ids` set of the source; the counter threads the
identifier supply). -/
def migrateLoop (gen : ℕ → String) (holdsSet : List String) :
    List JsonVal → ℕ → List String → List Angle
  | [], _, _ => []
  | a :: rest, ctr, ids =>
    match sanitizeAngle gen ctr a holdsSet with
    | (none, ctr') => migrateLoop gen holdsSet rest ctr' ids
    | (some sa, ctr') =>
      if sa.id ∈ ids then
        let sa' := { sa with id := gen ctr' }
        sa' :: migrateLoop gen holdsSet rest (ctr' + 1) (sa'.id :: ids)
      else
        sa :: migrateLoop gen holdsSet rest ctr' (sa.id :: ids)

/-- `migrateAndSanitize` from src/utils/crypto.js (storage module), the
single ingestion funnel. `gen` models `cryptoRandomId()`. -/
def migrateAndSanitize (gen : ℕ → String) (parsed : JsonVal) : Snapshot :=
  let unwrapped := unwrapImportedDb parsed
  let holdsRaw : JsonVal := match jsGet unwrapped "holds" with
    | none => defaultHoldsJson
    | some .null => defaultHoldsJson
    | some v => v
  let holds := sanitizeHoldList holdsRaw
  let anglesRaw : List JsonVal := match jsGet unwrapped "angles" with
    | some (.arr l) => l
    | _ => DEFAULT_ANGLES
  let angles := migrateLoop gen holds anglesRaw 0 []
  let rawHoldImages : JsonVal := match jsGet unwrapped "holdImages" with
    | some v => if jsTruthy v ∧ jsIsObjectLike v then v else .obj []
    | none => .obj []
  let holdImages : List (String × String) := holds.filterMap (fun h =>
    match jsGet rawHoldImages h with
    | some (.str v) => if jsStartsWith "data:image/" v then some (h, v) else none
    | _ => none)
  ⟨LS_VERSION, holds, angles, holdImages⟩

/-- Re-embedding of a sanitized Angle as a parsed-JSON object (the shape
`sanitizeAngle` returns, with the `drawing` key present only when set). -/
def angleToJson (a : Angle) : JsonVal :=
  .obj ([("id", .str a.id), ("hold", .str a.hold), ("value", .num a.value),
    ("saw", .str a.saw.toStr)] ++
    (match a.drawing with
     | some d => [("drawing", .str d)]
     | none => []))

/-- Re-embedding of a Canonical Snapshot as a parsed-JSON document (the
round trip through `JSON.stringify`/`JSON.parse` used by the persistence
layer). -/
def snapshotToJson (s : Snapshot) : JsonVal :=
  .obj [("version", .num s.version), ("holds", .arr (s.holds.map .str)),
    ("angles", .arr (s.angles.map angleToJson)),
    ("holdImages", .obj (s.holdImages.map (fun p => (p.1, .str p.2))))]

/-- Escape of one character inside a JSON string literal
(`JSON.stringify`). -/
def jsonEscapeChar (c : Char) : List Char :=
  if c = '"' then ['\\', '"']
  else if c = '\\' then ['\\', '\\']
  else if c = '\n' then ['\\', 'n']
  else if c = '\r' then ['\\', 'r']
  else if c = '\t' then ['\\', 't']
  else [c]

def jsonQuote (s : String) : String :=
  ⟨'"' :: (s.data.flatMap jsonEscapeChar) ++ ['"']⟩

mutual

/-- `JSON.stringify` (compact form, as called by `validateImportSize`). -/
def jsonStringify : JsonVal → String
  | .null => "null"
  | .bool true => "true"
  | .bool false => "false"
  | .num q => jsNumToString q
  | .str s => jsonQuote s
  | .arr l => "[" ++ jsonStringifyList l ++ "]"
  | .obj kvs => "\x7b" ++ jsonStringifyFields kvs ++ "\x7d"
termination_by structural v => v

def jsonStringifyList : List JsonVal → String
  | [] => ""
  | [x] => jsonStringify x
  | x :: xs => jsonStringify x ++ "," ++ jsonStringifyList xs
termination_by structural l => l

def jsonStringifyFields : List (String × JsonVal) → String
  | [] => ""
  | [(k, v)] => jsonQuote k ++ ":" ++ jsonStringify v
  | (k, v) :: xs => jsonQuote k ++ ":" ++ jsonStringify v ++ "," ++
      jsonStringifyFields xs
termination_by structural l => l

end

/-- UTF-8 byte size of a string, as measured by `new Blob([json]).size`. -/
def jsByteSize (s : String) : ℕ := (s.data.map Char.utf8Size).sum

/-- `sizeKB.toFixed(0)`: the byte count divided by 1024, rounded to the
nearest integer (halves up). -/
def sizeKBRounded (bytes : ℕ) : ℕ := (bytes + 512) / 1024

/-- `validateImportSize` from src/utils/crypto.js (storage module):
serializes the candidate, measures its byte size, and throws a descriptive
error when it exceeds the 4 MiB ceiling. The comparison
`sizeKB > MAX_STORAGE_SIZE_KB` on the exact quotient `bytes / 1024` is
equivalent to `bytes > MAX_STORAGE_SIZE_KB * 1024`. -/
def validateImportSize (parsed : JsonVal) : Except String JsonVal :=
  let bytes := jsByteSize (jsonStringify parsed)
  if bytes > MAX_STORAGE_SIZE_KB * 1024 then
    .error ("Import too large: " ++ toString (sizeKBRounded bytes) ++
      "KB (max " ++ toString MAX_STORAGE_SIZE_KB ++
      "KB). Remove some images or compress them.")
  else .ok parsed

/-- `pushBackup` from src/utils/crypto.js (storage module), reduced to its
ring transformation: the stored ring (`none` models a missing key or a
stored value that is not an array, which the source coerces to `[]`)
receives a `{ ts, data }` entry in front and is truncated to
`MAX_BACKUPS`. The surrounding try/catch makes any storage failure a
non-fatal no-op, so the function itself is total. -/
def pushBackupRing {α : Type} (now : ℕ) (snapshot : α)
    (stored : Option (List (ℕ × α))) : List (ℕ × α) :=
  ((now, snapshot) :: stored.getD []).take MAX_BACKUPS

/-- The slice of App state that the import handler touches: the in-memory
snapshot (`data`) and the stored backup ring. -/
structure AppState where
  data : Snapshot
  backups : List (ℕ × Snapshot)
deriving DecidableEq, Repr

/-- Outcome of one run of the import handler. -/
inductive ImportOutcome where
  | parseFailed : ImportOutcome
  | noHolds : ImportOutcome
  | imported : ImportOutcome
deriving DecidableEq, Repr

/-- `handleImportDb` from src/App.jsx (lines 1125-1150): read and parse the
file (a parse failure is the `catch` branch), migrate, reject when the
migrated snapshot has no holds, otherwise push a backup of the current
data and replace the state. The UI-only actions (selection resets, alerts,
last-modified touch) are outside the modelled state. Note: no size check
appears on this path. -/
def handleImportDb (gen : ℕ → String) (now : ℕ)
    (fileParse : Except Unit JsonVal) (st : AppState) :
    AppState × ImportOutcome :=
  match fileParse with
  | .error _ => (st, .parseFailed)
  | .ok parsed =>
    let safe := migrateAndSanitize gen parsed
    if safe.holds.isEmpty then (st, .noHolds)
    else
      ({ data := safe,
         backups := pushBackupRing now st.data (some st.backups) },
       .imported)

/-- The state update of `confirmRemoveHold` from src/App.jsx (lines
990-1008), after the user confirms: drop the hold, cascade-delete its
angles, and delete its cover-image entry (`delete nextHoldImages[name]`).
-/
def confirmRemoveHold (nameToRemove : String) (prev : Snapshot) : Snapshot :=
  { prev with
    holds := sortHolds (prev.holds.filter (fun h => h ≠ nameToRemove)),
    angles := prev.angles.filter (fun a => a.hold ≠ nameToRemove),
    holdImages := prev.holdImages.filter (fun p => p.1 ≠ nameToRemove) }

/-- State of the debounced-write scheduler of
src/hooks/useDebouncedStorage.js: the pending buffer (`pendingRef`), the
armed timer (`timerRef`, holding its deadline and the data captured by the
timeout closure), and the writes performed so far (each `saveState` call,
tagged with its time). -/
structure SchedState (α : Type) where
  pending : Option α
  timer : Option (ℕ × α)
  writes : List (ℕ × α)
deriving DecidableEq, Repr

/-- External events driving the scheduler: a data mutation (a re-run of the
debounce effect) and the `beforeunload` forced flush. -/
inductive SchedEvent (α : Type) where
  | mutate (t : ℕ) (snap : α) : SchedEvent α
  | unload (t : ℕ) : SchedEvent α

def SchedEvent.time {α : Type} : SchedEvent α → ℕ
  | .mutate t _ => t
  | .unload t => t

/-- Fire the armed timer if its deadline has passed by time `t`: the
timeout callback calls `saveState(data)` with the captured data and clears
the pending buffer. -/
def fireIfDue {α : Type} (t : ℕ) (st : SchedState α) : SchedState α :=
  match st.timer with
  | some (d, snap) =>
    if d ≤ t then ⟨none, none, st.writes ++ [(d, snap)]⟩ else st
  | none => st

/-- One external event. A mutation clears the previous timeout and arms a
new one `delay` later, and records the data in the pending buffer. The
`beforeunload` flush writes the pending data if any and clears only the
pending buffer — the source's `flush` does not call `clearTimeout`, so the
armed timer stays armed. -/
def schedStep {α : Type} (delay : ℕ) (st : SchedState α) :
    SchedEvent α → SchedState α
  | .mutate t snap => { st with pending := some snap, timer := some (t + delay, snap) }
  | .unload t =>
    match st.pending with
    | some p => { st with pending := none, writes := st.writes ++ [(t, p)] }
    | none => st

/-- Run the scheduler over a time-ordered list of external events and then
let time advance to `horizon`: before each event (and at the horizon) any
due timer fires, exactly as the single-threaded event loop would order it.
-/
def runSched {α : Type} (delay : ℕ) (events : List (SchedEvent α))
    (horizon : ℕ) : SchedState α :=
  fireIfDue horizon
    (events.foldl (fun st ev => schedStep delay (fireIfDue ev.time st) ev)
      ⟨none, none, []⟩)

/-! Concrete fixtures used by witnesses and counterexamples. -/

/-- A concrete identifier supply standing in for `cryptoRandomId()`. -/
def genW (n : ℕ) : String := "fresh-" ++ toString n

/-- A small well-formed snapshot: two holds, two angles, one cover image. -/
def snapW : Snapshot :=
  ⟨1, ["Austin", "Base 10"],
    [⟨"a1", "Austin", 10, .main, none⟩, ⟨"a2", "Base 10", 20, .stefan, none⟩,
     ⟨"a3", "Austin", 30, .stefan, some "data:image/png;base64,zz"⟩],
    [("Austin", "data:image/png;base64,yy")]⟩

/-- App state slice used in import theorems. -/
def stW : AppState := ⟨⟨1, ["A"], [], []⟩, []⟩

/-- A parsed document whose holds list is present but empty. -/
def emptyHoldsDoc : JsonVal := .obj [("holds", .arr [])]

/-- A parsed document with one hold that matches no seed angle. -/
def zetaDoc : JsonVal := .obj [("holds", .arr [.str "Zeta"])]

/-- A parsed document whose holds are exactly the holds referenced by the
seed angle list, with no `angles` field. -/
def seedHoldsDoc : JsonVal := .obj [("holds",
  .arr [.str "Amon", .str "Austin", .str "Avalon Flat", .str "Avalon SuperFlat"])]

/-- A messy import document exercising normalization, defaulting,
deduplication, clamping and image filtering. -/
def messyDoc : JsonVal := .obj [
  ("holds", .arr [.str " zeta  one", .str "B", .str "b "]),
  ("angles", .arr [
    .obj [("id", .str "a1"), ("hold", .str "zeta one"),
      ("value", .str "45,5"), ("saw", .str "stefan")],
    .obj [("hold", .str "b"), ("value", .num 100)],
    .obj [("id", .str "a1"), ("hold", .str "B"), ("value", .num 7),
      ("drawing", .str "data:image/png;base64,xx")]]),
  ("holdImages", .obj [("B", .str "data:image/jpeg;base64,q"),
    ("zeta one", .num 5)])]

/-- An import document with one hold, no angles, and one huge unused
string field of length `n` (its serialization grows beyond any ceiling as
`n` grows). -/
def bigDoc (n : ℕ) : JsonVal := .obj [
  ("holds", .arr [.str "A"]), ("angles", .arr []),
  ("big", .str ⟨List.replicate n 'a'⟩)]

/-- The per-hold cover-image selection inside `migrateAndSanitize`: the
string value stored under `h`, kept only with the inline-image prefix. -/
def imgAt (raw : JsonVal) (h : String) : Option String :=
  match jsGet raw h with
  | some (.str v) => if jsStartsWith "data:image/" v then some v else none
  | _ => none

/-- The `rawHoldImages` selection of `migrateAndSanitize` applied to `x`. -/
def rawImagesOf (x : JsonVal) : JsonVal :=
  match jsGet (unwrapImportedDb x) "holdImages" with
  | some v => if jsTruthy v ∧ jsIsObjectLike v then v else .obj []
  | none => .obj []

/-- Auxiliary predicate: the list does not start with whitespace. -/
def headNonWs : List Char → Bool
  | [] => true
  | c :: _ => !isWsChar c

/-- Auxiliary predicate: the list does not end with whitespace. -/
def lastNonWs : List Char → Bool
  | [] => true
  | [c] => !isWsChar c
  | _ :: c :: cs => lastNonWs (c :: cs)

/-- Auxiliary predicate: every whitespace character is a single space
followed by a non-space (or the end) — the shape `collapseWs` produces and
fixes. -/
def wellSpaced : List Char → Bool
  | [] => true
  | [c] => !isWsChar c || (c == ' ')
  | c :: d :: cs =>
    (if isWsChar c then (c == ' ') && !isWsChar d else true) &&
      wellSpaced (d :: cs)

/-! Helper lemmas. -/

theorem wellSpaced_cons_nonws (c : Char) (l : List Char)
    (h : isWsChar c = false) : wellSpaced (c :: l) = wellSpaced l := by
  cases l <;> simp [wellSpaced, h]

theorem wellSpaced_cons_space (l : List Char) (hh : headNonWs l = true)
    (hw : wellSpaced l = true) : wellSpaced (' ' :: l) = true := by
  cases l with
  | nil => decide
  | cons d ds =>
    have hd : isWsChar d = false := by simpa [headNonWs] using hh
    show ((if isWsChar ' ' then (' ' == ' ') && !isWsChar d else true) &&
      wellSpaced (d :: ds)) = true
    rw [if_pos (by decide), hd]
    simpa using hw

theorem collapse_identity :
    ∀ l : List Char, wellSpaced l = true →
      collapseWs l = l ∧ (headNonWs l = true → collapseAfterWs l = l) := by
  intro l
  induction l with
  | nil => intro _; exact ⟨rfl, fun _ => rfl⟩
  | cons c cs ih =>
    intro hw
    by_cases hc : isWsChar c = true
    · have hcs : wellSpaced cs = true ∧ c = ' ' ∧ headNonWs cs = true := by
        cases cs with
        | nil =>
          simp [wellSpaced, hc] at hw
          exact ⟨rfl, by simpa using hw, rfl⟩
        | cons d ds =>
          simp [wellSpaced, hc] at hw
          exact ⟨hw.2, hw.1.1, by simp [headNonWs, hw.1.2]⟩
      obtain ⟨hwcs, rfl, hhcs⟩ := hcs
      constructor
      · show collapseWs (' ' :: cs) = ' ' :: cs
        unfold collapseWs
        rw [if_pos hc]
        exact congrArg (' ' :: ·) ((ih hwcs).2 hhcs)
      · intro hh
        simp [headNonWs, hc] at hh
    · have hwcs : wellSpaced cs = true := by
        rw [wellSpaced_cons_nonws c cs (by simpa using hc)] at hw
        exact hw
      constructor
      · unfold collapseWs
        rw [if_neg hc]
        exact congrArg (c :: ·) (ih hwcs).1
      · intro _
        unfold collapseAfterWs
        rw [if_neg hc]
        exact congrArg (c :: ·) (ih hwcs).1

theorem collapse_wellSpaced :
    ∀ l : List Char, wellSpaced (collapseWs l) = true ∧
      wellSpaced (collapseAfterWs l) = true ∧
      headNonWs (collapseAfterWs l) = true := by
  intro l
  induction l with
  | nil => exact ⟨rfl, rfl, rfl⟩
  | cons c cs ih =>
    by_cases hc : isWsChar c = true
    · refine ⟨?_, ?_, ?_⟩
      · show wellSpaced (collapseWs (c :: cs)) = true
        unfold collapseWs
        rw [if_pos hc]
        exact wellSpaced_cons_space _ ih.2.2 ih.2.1
      · show wellSpaced (collapseAfterWs (c :: cs)) = true
        unfold collapseAfterWs
        rw [if_pos hc]
        exact ih.2.1
      · unfold collapseAfterWs
        rw [if_pos hc]
        exact ih.2.2
    · have hws : wellSpaced (c :: collapseWs cs) = true := by
        rw [wellSpaced_cons_nonws c _ (by simpa using hc)]
        exact ih.1
      refine ⟨?_, ?_, ?_⟩
      · unfold collapseWs
        rw [if_neg hc]
        exact hws
      · unfold collapseAfterWs
        rw [if_neg hc]
        exact hws
      · unfold collapseAfterWs
        rw [if_neg hc]
        simpa [headNonWs] using hc

theorem lastNonWs_cons (a : Char) (l : List Char) (h : l ≠ []) :
    lastNonWs (a :: l) = lastNonWs l := by
  cases l with
  | nil => exact absurd rfl h
  | cons d ds => rfl

theorem collapse_ne_nil :
    ∀ l : List Char, l ≠ [] → lastNonWs l = true →
      collapseWs l ≠ [] ∧ collapseAfterWs l ≠ [] := by
  intro l
  induction l with
  | nil => intro h; exact absurd rfl h
  | cons c cs ih =>
    intro _ hl
    by_cases hc : isWsChar c = true
    · cases cs with
      | nil => simp [lastNonWs, hc] at hl
      | cons d ds =>
        rw [lastNonWs_cons c _ (by simp)] at hl
        constructor
        · unfold collapseWs
          rw [if_pos hc]
          simp
        · unfold collapseAfterWs
          rw [if_pos hc]
          exact (ih (by simp) hl).2
    · constructor
      · unfold collapseWs
        rw [if_neg hc]
        simp
      · unfold collapseAfterWs
        rw [if_neg hc]
        simp

theorem collapse_lastNonWs :
    ∀ l : List Char, lastNonWs l = true →
      lastNonWs (collapseWs l) = true ∧
      lastNonWs (collapseAfterWs l) = true := by
  intro l
  induction l with
  | nil => intro _; exact ⟨rfl, rfl⟩
  | cons c cs ih =>
    intro hl
    cases cs with
    | nil =>
      have hc : isWsChar c = false := by simpa [lastNonWs] using hl
      constructor
      · unfold collapseWs
        rw [if_neg (by simp [hc])]
        exact hl
      · unfold collapseAfterWs
        rw [if_neg (by simp [hc])]
        exact hl
    | cons d ds =>
      rw [lastNonWs_cons c _ (by simp)] at hl
      have hne := collapse_ne_nil (d :: ds) (by simp) hl
      by_cases hc : isWsChar c = true
      · constructor
        · unfold collapseWs
          rw [if_pos hc]
          rw [lastNonWs_cons ' ' _ hne.2]
          exact (ih hl).2
        · unfold collapseAfterWs
          rw [if_pos hc]
          exact (ih hl).2
      · constructor
        · unfold collapseWs
          rw [if_neg hc]
          rw [lastNonWs_cons c _ hne.1]
          exact (ih hl).1
        · unfold collapseAfterWs
          rw [if_neg hc]
          rw [lastNonWs_cons c _ hne.1]
          exact (ih hl).1

theorem collapse_headNonWs (l : List Char) (h : headNonWs l = true) :
    headNonWs (collapseWs l) = true := by
  cases l with
  | nil => rfl
  | cons c cs =>
    have hc : isWsChar c = false := by simpa [headNonWs] using h
    unfold collapseWs
    rw [if_neg (by simp [hc])]
    simpa [headNonWs] using hc

theorem headNonWs_dropWhile (l : List Char) :
    headNonWs (l.dropWhile isWsChar) = true := by
  induction l with
  | nil => rfl
  | cons c cs ih =>
    by_cases hc : isWsChar c = true
    · simpa [List.dropWhile_cons, hc] using ih
    · simp [List.dropWhile_cons, hc, headNonWs]

theorem dropWhile_of_headNonWs (l : List Char) (h : headNonWs l = true) :
    l.dropWhile isWsChar = l := by
  cases l with
  | nil => rfl
  | cons c cs =>
    have hc : isWsChar c = false := by simpa [headNonWs] using h
    simp [List.dropWhile_cons, hc]

theorem headNonWs_append (a b : List Char) (h : a ≠ []) :
    headNonWs (a ++ b) = headNonWs a := by
  cases a with
  | nil => exact absurd rfl h
  | cons c cs => rfl

theorem lastNonWs_eq_headNonWs_reverse :
    ∀ l : List Char, lastNonWs l = headNonWs l.reverse := by
  intro l
  induction l with
  | nil => rfl
  | cons c cs ih =>
    cases cs with
    | nil => rfl
    | cons d ds =>
      calc lastNonWs (c :: d :: ds) = lastNonWs (d :: ds) := rfl
        _ = headNonWs ((d :: ds).reverse) := ih
        _ = headNonWs ((d :: ds).reverse ++ [c]) :=
            (headNonWs_append _ _ (by simp)).symm
        _ = headNonWs ((c :: d :: ds).reverse) := by simp [List.reverse_cons]

theorem headNonWs_jsTrimList (l : List Char) :
    headNonWs (jsTrimList l) = true := by
  unfold jsTrimList
  rcases hm : l.dropWhile isWsChar with - | ⟨c, cs⟩
  · rfl
  · have hc : isWsChar c = false := by
      have := headNonWs_dropWhile l
      rw [hm] at this
      simpa [headNonWs] using this
    rw [show (c :: cs).reverse = cs.reverse ++ [c] by simp]
    rcases hd : (cs.reverse ++ [c]).dropWhile isWsChar with - | ⟨e, es⟩
    · rfl
    · have hsuff : (e :: es) <:+ (cs.reverse ++ [c]) := by
        rw [← hd]
        exact List.dropWhile_suffix isWsChar
      obtain ⟨t, ht⟩ := hsuff
      have hrev : (e :: es).reverse ++ t.reverse = c :: cs := by
        have := congrArg List.reverse ht
        simpa using this
      rcases hr : (e :: es).reverse with - | ⟨a, as⟩
      · exact absurd (congrArg List.length hr) (by simp)
      · rw [hr] at hrev
        have ha : a = c := by
          have := congrArg (List.head? ·) hrev
          simpa using this
        rw [ha]
        simpa [headNonWs] using hc

theorem lastNonWs_jsTrimList (l : List Char) :
    lastNonWs (jsTrimList l) = true := by
  rw [lastNonWs_eq_headNonWs_reverse]
  unfold jsTrimList
  rw [List.reverse_reverse]
  exact headNonWs_dropWhile _

theorem jsTrimList_of_fixed (l : List Char) (h1 : headNonWs l = true)
    (h2 : lastNonWs l = true) : jsTrimList l = l := by
  unfold jsTrimList
  rw [dropWhile_of_headNonWs l h1]
  rw [dropWhile_of_headNonWs l.reverse
    (by rw [← lastNonWs_eq_headNonWs_reverse]; exact h2)]
  exact List.reverse_reverse l

/-- The name normalization `trim` + collapse-whitespace is idempotent. -/
theorem jsTrimCollapse_idem (s : String) :
    jsTrimCollapse (jsTrimCollapse s) = jsTrimCollapse s := by
  unfold jsTrimCollapse
  have hz1 := headNonWs_jsTrimList s.data
  have hz2 := lastNonWs_jsTrimList s.data
  have hy1 : headNonWs (collapseWs (jsTrimList s.data)) = true :=
    collapse_headNonWs _ hz1
  have hy2 : lastNonWs (collapseWs (jsTrimList s.data)) = true :=
    (collapse_lastNonWs _ hz2).1
  have hyw : wellSpaced (collapseWs (jsTrimList s.data)) = true :=
    (collapse_wellSpaced _).1
  show String.mk (collapseWs (jsTrimList (collapseWs (jsTrimList s.data)))) = _
  rw [jsTrimList_of_fixed _ hy1 hy2]
  rw [(collapse_identity _ hyw).1]

theorem clamp_mem (q : ℚ) : 0 ≤ clamp q 0 90 ∧ clamp q 0 90 ≤ 90 := by
  unfold clamp jsMax jsMin
  split_ifs <;> constructor <;> linarith

theorem clamp_matchParse_mem (r : Option ℚ) :
    0 ≤ (match r with | some q => clamp q 0 90 | none => (0 : ℚ)) ∧
      (match r with | some q => clamp q 0 90 | none => (0 : ℚ)) ≤ 90 := by
  cases r
  · norm_num
  · exact clamp_mem _

theorem lookup_filter_self (X : String) (l : List (String × String)) :
    ((l.filter (fun p => p.1 ≠ X)).lookup X) = none := by
  induction l with
  | nil => rfl
  | cons kv rest ih =>
    rcases kv with ⟨k, v⟩
    by_cases h : k = X
    · simpa [List.filter_cons, h] using ih
    · have hXk : (X == k) = false := beq_eq_false_iff_ne.mpr (fun c => h c.symm)
      simp only [List.filter_cons, decide_eq_true_eq]
      rw [if_pos h]
      simpa [List.lookup, hXk] using ih

theorem lookup_filter_other (X h' : String) (hne : h' ≠ X)
    (l : List (String × String)) :
    ((l.filter (fun p => p.1 ≠ X)).lookup h') = l.lookup h' := by
  induction l with
  | nil => rfl
  | cons kv rest ih =>
    rcases kv with ⟨k, v⟩
    by_cases h : k = X
    · subst h
      have hk : (h' == k) = false := beq_eq_false_iff_ne.mpr hne
      simp only [List.filter_cons, decide_eq_true_eq]
      rw [if_neg (by simp)]
      simpa [List.lookup, hk] using ih
    · simp only [List.filter_cons, decide_eq_true_eq]
      rw [if_pos h]
      have hh : (fun p : String × String => !decide (p.1 = X)) =
          (fun p => decide (p.1 ≠ X)) := by funext p; simp
      cases hbk : (h' == k) <;> simp [List.lookup, hbk, hh, ih]

/-! Claim theorems. -/

/-- C6: `normalizeAngleValue` (the value normalization inside
`sanitizeAngle`) accepts a number or a string with "." or "," as decimal
separator, yields 0 on parse failure, and otherwise clamps to [0, 90]:
`-5 ↦ 0`, `999 ↦ 90`, `"45,5" ↦ 45.5`, `"abc" ↦ 0`; numbers are clamped
and every result lies in [0, 90]. -/
theorem normalizeAngleValue_spec :
    normalizeAngleValue (some (.num (-5))) = 0 ∧
    normalizeAngleValue (some (.num 999)) = 90 ∧
    normalizeAngleValue (some (.str "45,5")) = (45.5 : ℚ) ∧
    normalizeAngleValue (some (.str "45.5")) = (45.5 : ℚ) ∧
    normalizeAngleValue (some (.str "abc")) = 0 ∧
    (∀ q : ℚ, normalizeAngleValue (some (.num q)) = clamp q 0 90) ∧
    (∀ v : Option JsonVal,
      0 ≤ normalizeAngleValue v ∧ normalizeAngleValue v ≤ 90) := by
  refine ⟨?_, ?_, ?_, ?_, ?_, fun q => rfl, fun v => ?_⟩
  · show clamp (-5) 0 90 = 0
    unfold clamp jsMax jsMin
    norm_num
  · show clamp 999 0 90 = 90
    unfold clamp jsMax jsMin
    norm_num
  · have h : normalizeAngleValue (some (.str "45,5")) = mkRat 455 10 := by decide
    rw [h, Rat.mkRat_eq_div]
    norm_num
  · have h : normalizeAngleValue (some (.str "45.5")) = mkRat 455 10 := by decide
    rw [h, Rat.mkRat_eq_div]
    norm_num
  · decide
  · unfold normalizeAngleValue
    dsimp only
    split
    all_goals first
      | exact clamp_mem _
      | exact clamp_matchParse_mem _
      | norm_num

/-- C7 helper: elements of `dedupCIGo seen l` come from `l`. -/
theorem dedupCIGo_subset (seen : List String) (l : List String) :
    ∀ h ∈ dedupCIGo seen l, h ∈ l := by
  induction l generalizing seen with
  | nil => intro h hh; cases hh
  | cons a t ih =>
    intro h hh
    unfold dedupCIGo at hh
    split at hh
    · exact List.mem_cons_of_mem a (ih seen h hh)
    · rcases List.mem_cons.mp hh with rfl | hmem
      · exact List.mem_cons_self _ _
      · exact List.mem_cons_of_mem a (ih _ h hmem)

/-- C7 helper: `dedupCIGo` output is pairwise distinct on lowercased keys,
and its keys avoid `seen`. -/
theorem dedupCIGo_pairwise (seen : List String) (l : List String) :
    (∀ h ∈ dedupCIGo seen l, jsToLower h ∉ seen) ∧
    (dedupCIGo seen l).Pairwise (fun a b => jsToLower a ≠ jsToLower b) := by
  induction l generalizing seen with
  | nil => exact ⟨fun h hh => absurd hh (by simp [dedupCIGo]), by simp [dedupCIGo]⟩
  | cons a t ih =>
    unfold dedupCIGo
    split
    · exact ih seen
    · rename_i hnot
      refine ⟨?_, ?_⟩
      · intro h hh
        rcases List.mem_cons.mp hh with rfl | hmem
        · exact hnot
        · have := (ih (jsToLower a :: seen)).1 h hmem
          exact fun hc => this (List.mem_cons_of_mem _ hc)
      · refine List.pairwise_cons.mpr ⟨?_, (ih (jsToLower a :: seen)).2⟩
        intro b hb
        have := (ih (jsToLower a :: seen)).1 b hb
        exact fun hc => this (hc ▸ List.mem_cons_self _ _)

/-- C7: `sanitizeHoldList` maps every element through name normalization,
drops empty results, deduplicates case-insensitively with the first
occurrence winning, and returns a sorted (case-insensitive) list;
sanitizing `["Austin", "austin", "AUSTIN "]` yields exactly `["Austin"]`.
-/
theorem sanitizeHoldList_spec :
    sanitizeHoldList (.arr [.str "Austin", .str "austin", .str "AUSTIN "]) =
      ["Austin"] ∧
    ∀ v : JsonVal,
      (sanitizeHoldList v).Sorted holdLe ∧
      (sanitizeHoldList v).Pairwise (fun a b => jsToLower a ≠ jsToLower b) ∧
      ∀ h ∈ sanitizeHoldList v, h ≠ "" ∧
        ∃ x ∈ jsArrElems v, h = normalizeHoldNameSafe (some x) := by
  refine ⟨by decide, fun v => ⟨?_, ?_, ?_⟩⟩
  · exact List.sorted_insertionSort holdLe _
  · have hperm := List.perm_insertionSort holdLe
      (dedupCI (((jsArrElems v).map
        (fun x => normalizeHoldNameSafe (some x))).filter (fun s => s ≠ "")))
    exact (hperm.pairwise_iff (fun h => Ne.symm h)).mpr
      (dedupCIGo_pairwise [] _).2
  · intro h hh
    have hmem : h ∈ dedupCI (((jsArrElems v).map
        (fun x => normalizeHoldNameSafe (some x))).filter (fun s => s ≠ "")) :=
      List.mem_insertionSort holdLe |>.mp hh
    have hcl := dedupCIGo_subset [] _ h hmem
    have hfl := List.mem_filter.mp hcl
    rcases List.mem_map.mp hfl.1 with ⟨x, hx, hxe⟩
    exact ⟨by simpa using hfl.2, x, hx, hxe.symm⟩

/-- C8: removing hold X cascades: X leaves the holds list, all angles
referencing X are deleted, X's cover-image entry is deleted, and all other
holds, angles and cover images are untouched. -/
theorem confirmRemoveHold_cascade (prev : Snapshot) (X : String)
    (hX : X ∈ prev.holds) :
    X ∉ (confirmRemoveHold X prev).holds ∧
    (∀ a ∈ (confirmRemoveHold X prev).angles, a.hold ≠ X) ∧
    ((confirmRemoveHold X prev).holdImages.lookup X) = none ∧
    (∀ h, h ≠ X → ((h ∈ (confirmRemoveHold X prev).holds) ↔ h ∈ prev.holds)) ∧
    (confirmRemoveHold X prev).angles =
      prev.angles.filter (fun a => a.hold ≠ X) ∧
    (∀ h, h ≠ X → ((confirmRemoveHold X prev).holdImages.lookup h) =
      prev.holdImages.lookup h) ∧
    (confirmRemoveHold X prev).version = prev.version := by
  refine ⟨?_, ?_, ?_, ?_, rfl, ?_, rfl⟩
  · intro hc
    have := List.mem_filter.mp ((List.mem_insertionSort holdLe).mp hc)
    simp at this
  · intro a ha
    have := List.mem_filter.mp ha
    simpa using this.2
  · exact lookup_filter_self X prev.holdImages
  · intro h hne
    constructor
    · intro hc
      exact (List.mem_filter.mp ((List.mem_insertionSort holdLe).mp hc)).1
    · intro hc
      exact (List.mem_insertionSort holdLe).mpr
        (List.mem_filter.mpr ⟨hc, by simpa using hne⟩)
  · intro h hne
    exact lookup_filter_other X h hne prev.holdImages

/-- C8 witness: the cascade at a concrete snapshot containing "Austin". -/
theorem confirmRemoveHold_cascade_witness :
    "Austin" ∈ snapW.holds ∧
    "Austin" ∉ (confirmRemoveHold "Austin" snapW).holds ∧
    (∀ a ∈ (confirmRemoveHold "Austin" snapW).angles, a.hold ≠ "Austin") ∧
    ((confirmRemoveHold "Austin" snapW).holdImages.lookup "Austin") = none :=
  ⟨by decide,
    (confirmRemoveHold_cascade snapW "Austin" (by decide)).1,
    (confirmRemoveHold_cascade snapW "Austin" (by decide)).2.1,
    (confirmRemoveHold_cascade snapW "Austin" (by decide)).2.2.1⟩

/-- C9: `pushBackup` prepends the timestamped snapshot and truncates to 5
entries: pushing 7 backups into an empty ring leaves exactly the 5 most
recent, newest first; in general the ring never exceeds `MAX_BACKUPS` and
the newest entry is in front. -/
theorem pushBackup_ring_bound {α : Type} (s : ℕ → α) :
    ((List.range 7).foldl
        (fun r i => pushBackupRing (i + 1) (s (i + 1)) (some r)) [])
      = [(7, s 7), (6, s 6), (5, s 5), (4, s 4), (3, s 3)] ∧
    ∀ (now : ℕ) (snap : α) (stored : Option (List (ℕ × α))),
      (pushBackupRing now snap stored).length ≤ MAX_BACKUPS ∧
      (pushBackupRing now snap stored).head? = some (now, snap) := by
  refine ⟨rfl, fun now snap stored => ⟨?_, ?_⟩⟩
  · exact (List.length_take_le _ _).trans (le_refl _)
  · simp [pushBackupRing, MAX_BACKUPS]

/-- C5 (amended): three mutations inside one 500ms window coalesce into a
single write at t=700 of the last snapshot; a forced flush at t=250
writes the last snapshot at t=250 but does NOT cancel the armed timer,
which fires at t=700 and writes the same snapshot again if execution
continues. -/
theorem debounce_coalesce_flush (α : Type) (s0 s1 s2 : α) :
    (runSched 500 [.mutate 0 s0, .mutate 100 s1, .mutate 200 s2] 1000).writes
      = [(700, s2)] ∧
    (runSched 500 [.mutate 0 s0, .mutate 100 s1, .mutate 200 s2, .unload 250]
      250).writes = [(250, s2)] ∧
    (runSched 500 [.mutate 0 s0, .mutate 100 s1, .mutate 200 s2, .unload 250]
      250).timer = some (700, s2) ∧
    (runSched 500 [.mutate 0 s0, .mutate 100 s1, .mutate 200 s2, .unload 250]
      1000).writes = [(250, s2), (700, s2)] :=
  ⟨rfl, rfl, rfl, rfl⟩

/-- C5 counterexample: with mutations at t=0,100,200 and a forced flush at
t=250, the claim "exactly one write occurs and the pending timer is
canceled" is false: right after the flush the timer is still armed for
t=700, and if execution continues a second (duplicate) write happens at
t=700. -/
theorem debounce_flush_cancel_cex :
    ¬ (((runSched 500 [.mutate 0 (0 : ℕ), .mutate 100 1, .mutate 200 2,
          .unload 250] 250).timer = none) ∧
        (runSched 500 [.mutate 0 (0 : ℕ), .mutate 100 1, .mutate 200 2,
          .unload 250] 1000).writes.length = 1) := by
  decide

/-- C10: a document with a valid holds array but no angles field receives
the seed angle list, which is then filtered against the sanitized input
holds: `{holds:["Zeta"]}` yields no angles at all, while holds covering
the seed angles' holds yield the full seed list. -/
theorem migrate_seed_angles_filtered :
    migrateAndSanitize genW zetaDoc = ⟨LS_VERSION, ["Zeta"], [], []⟩ ∧
    migrateAndSanitize genW seedHoldsDoc =
      ⟨LS_VERSION, ["Amon", "Austin", "Avalon Flat", "Avalon SuperFlat"],
        [⟨"default-id-1", "Austin", mkRat 282 10, .main, none⟩,
         ⟨"default-id-2", "Avalon Flat", 65, .main, none⟩,
         ⟨"default-id-3", "Austin", mkRat 653 10, .main, none⟩,
         ⟨"default-id-4", "Avalon SuperFlat", 30, .stefan, none⟩,
         ⟨"default-id-5", "Amon", 50, .stefan, none⟩], []⟩ := by
  constructor
  · decide
  · decide

/-- C7 witness: the element facts of `sanitizeHoldList_spec` at the
concrete uniqueness example. -/
theorem sanitizeHoldList_spec_witness :
    "Austin" ≠ "" ∧
    ∃ x ∈ jsArrElems (.arr [.str "Austin", .str "austin", .str "AUSTIN "]),
      "Austin" = normalizeHoldNameSafe (some x) :=
  (sanitizeHoldList_spec.2
    (.arr [.str "Austin", .str "austin", .str "AUSTIN "])).2.2
    "Austin" (by decide)

/-- A successfully sanitized angle's hold is a member of the hold set (and
is non-empty). -/
theorem sanitizeAngle_some_hold (gen : ℕ → String) (ctr : ℕ) (a : JsonVal)
    (hs : List String) (sa : Angle) (ctr' : ℕ)
    (h : sanitizeAngle gen ctr a hs = (some sa, ctr')) :
    sa.hold ∈ hs ∧ sa.hold ≠ "" := by
  unfold sanitizeAngle at h
  dsimp only at h
  split at h
  · simp at h
  · rename_i hcond
    push_neg at hcond
    rw [Prod.mk.injEq] at h
    obtain ⟨h1, -⟩ := h
    injection h1 with h2
    subst h2
    exact ⟨hcond.2, hcond.1⟩

/-- Every angle produced by the migration loop references a hold of the
sanitized hold set. -/
theorem migrateLoop_hold_mem (gen : ℕ → String) (hs : List String) :
    ∀ (l : List JsonVal) (ctr : ℕ) (ids : List String),
      ∀ a ∈ migrateLoop gen hs l ctr ids, a.hold ∈ hs := by
  intro l
  induction l with
  | nil => intro ctr ids a ha; cases ha
  | cons x rest ih =>
    intro ctr ids a ha
    unfold migrateLoop at ha
    rcases hsa : sanitizeAngle gen ctr x hs with ⟨osa, ctr'⟩
    rw [hsa] at ha
    cases osa with
    | none => exact ih ctr' ids a ha
    | some sa =>
      dsimp only at ha
      by_cases hid : sa.id ∈ ids
      · rw [if_pos hid] at ha
        rcases List.mem_cons.mp ha with rfl | hmem
        · exact (sanitizeAngle_some_hold gen ctr x hs _ ctr' hsa).1
        · exact ih _ _ a hmem
      · rw [if_neg hid] at ha
        rcases List.mem_cons.mp ha with rfl | hmem
        · exact (sanitizeAngle_some_hold gen ctr x hs _ ctr' hsa).1
        · exact ih _ _ a hmem

/-- Every key of the sanitized cover-image map is a member of the hold
list it was built from. -/
theorem holdImages_key_mem (raw : JsonVal) (holds : List String)
    (kv : String × String)
    (h : kv ∈ holds.filterMap (fun h =>
      match jsGet raw h with
      | some (.str v) => if jsStartsWith "data:image/" v then some (h, v)
          else none
      | _ => none)) :
    kv.1 ∈ holds := by
  rcases List.mem_filterMap.mp h with ⟨h0, hh0, hf⟩
  rcases hg : jsGet raw h0 with - | w
  · rw [hg] at hf; cases hf
  · rw [hg] at hf
    cases w <;> simp only at hf
    all_goals first
      | cases hf
      | (split at hf
         · cases hf; exact hh0
         · cases hf)

/-- C1: referential integrity of every migrated snapshot: each angle's
hold reference and each cover-image key is a member of the snapshot's
hold list. -/
theorem migrate_referential_integrity (gen : ℕ → String) (x : JsonVal) :
    (∀ a ∈ (migrateAndSanitize gen x).angles,
      a.hold ∈ (migrateAndSanitize gen x).holds) ∧
    (∀ kv ∈ (migrateAndSanitize gen x).holdImages,
      kv.1 ∈ (migrateAndSanitize gen x).holds) := by
  unfold migrateAndSanitize
  dsimp only
  constructor
  · intro a ha
    exact migrateLoop_hold_mem gen _ _ 0 [] a ha
  · intro kv hkv
    exact holdImages_key_mem _ _ kv hkv

/-- C1 witness: a concrete migrated angle and its hold membership. -/
theorem migrate_referential_integrity_witness :
    (⟨"default-id-1", "Austin", mkRat 282 10, Saw.main, none⟩ : Angle) ∈
      (migrateAndSanitize genW seedHoldsDoc).angles ∧
    "Austin" ∈ (migrateAndSanitize genW seedHoldsDoc).holds :=
  ⟨by decide,
    (migrate_referential_integrity genW seedHoldsDoc).1
      ⟨"default-id-1", "Austin", mkRat 282 10, Saw.main, none⟩ (by decide)⟩

/-- C4 counterexample: the parsed document `{holds: []}` is neither a
parse failure nor oversized, yet the import path hard-rejects it ("no
holds found") and leaves the state unchanged. -/
theorem import_empty_holds_cex :
    (handleImportDb genW 0 (.ok emptyHoldsDoc) stW).2 ≠ .imported ∧
    (handleImportDb genW 0 (.ok emptyHoldsDoc) stW).1 = stW ∧
    jsByteSize (jsonStringify emptyHoldsDoc) ≤ MAX_STORAGE_SIZE_KB * 1024 := by
  refine ⟨by decide, by decide, by decide⟩

/-- C4 (amended): the import path accepts every successfully parsed
document whose migrated snapshot has a non-empty hold list (replacing the
state and pushing a backup of the previous data); it hard-rejects exactly
the documents whose migrated hold list is empty, and parse failures are a
distinct outcome with no state change. -/
theorem import_contract_amended (gen : ℕ → String) (now : ℕ)
    (parsed : JsonVal) (st : AppState) :
    ((migrateAndSanitize gen parsed).holds = [] →
      handleImportDb gen now (.ok parsed) st = (st, .noHolds)) ∧
    ((migrateAndSanitize gen parsed).holds ≠ [] →
      handleImportDb gen now (.ok parsed) st =
        ({ data := migrateAndSanitize gen parsed,
           backups := pushBackupRing now st.data (some st.backups) },
         .imported)) ∧
    (∀ e : Unit, handleImportDb gen now (.error e) st = (st, .parseFailed)) := by
  refine ⟨fun h => ?_, fun h => ?_, fun e => rfl⟩
  · simp [handleImportDb, List.isEmpty_iff, h]
  · simp [handleImportDb, List.isEmpty_iff, h]

/-- C4 witness: a concrete accepted import (state replaced, backup
pushed). -/
theorem import_contract_amended_witness :
    (migrateAndSanitize genW zetaDoc).holds ≠ [] ∧
    handleImportDb genW 3 (.ok zetaDoc) stW =
      ({ data := migrateAndSanitize genW zetaDoc,
         backups := pushBackupRing 3 stW.data (some stW.backups) },
       .imported) :=
  ⟨by decide, (import_contract_amended genW 3 zetaDoc stW).2.1 (by decide)⟩

theorem jsByteSize_append (a b : String) :
    jsByteSize (a ++ b) = jsByteSize a + jsByteSize b := by
  simp [jsByteSize]

theorem escape_replicate_a (n : ℕ) :
    (List.replicate n 'a').flatMap jsonEscapeChar = List.replicate n 'a' := by
  induction n with
  | zero => rfl
  | succ k ih =>
    simp only [List.replicate_succ, List.flatMap_cons, ih]
    rfl

theorem jsonQuote_replicate_a (n : ℕ) :
    jsByteSize (jsonQuote ⟨List.replicate n 'a'⟩) = n + 2 := by
  unfold jsonQuote jsByteSize
  simp only [escape_replicate_a]
  have ha : 'a'.utf8Size = 1 := by decide
  have hq : '"'.utf8Size = 1 := by decide
  simp [List.map_append, List.map_replicate, ha, hq, List.sum_replicate]
  omega

/-- The serialized size of `bigDoc n` is `n` plus a 36-byte frame, so it
exceeds the 4 MiB ceiling exactly when `n > 4 MiB - 36`. -/
theorem bigDoc_size (n : ℕ) :
    jsByteSize (jsonStringify (bigDoc n)) = n + 36 := by
  show jsByteSize ("\x7b" ++ ("\"holds\"" ++ ":" ++ "[\"A\"]" ++ "," ++
    ("\"angles\"" ++ ":" ++ "[]" ++ "," ++
      ("\"big\"" ++ ":" ++ jsonQuote ⟨List.replicate n 'a'⟩))) ++ "\x7d")
    = n + 36
  simp only [jsByteSize_append, jsonQuote_replicate_a]
  have h1 : jsByteSize "\x7b" = 1 := by decide
  have h2 : jsByteSize "\"holds\"" = 7 := by decide
  have h3 : jsByteSize ":" = 1 := by decide
  have h4 : jsByteSize "[\"A\"]" = 5 := by decide
  have h5 : jsByteSize "," = 1 := by decide
  have h6 : jsByteSize "\"angles\"" = 8 := by decide
  have h7 : jsByteSize "[]" = 2 := by decide
  have h8 : jsByteSize "\"big\"" = 5 := by decide
  have h9 : jsByteSize "\x7d" = 1 := by decide
  rw [h1, h2, h3, h4, h5, h6, h7, h8, h9]
  omega

/-- C3: `validateImportSize` itself rejects an oversized candidate with a
message naming the measured size and the ceiling — but the import path
(`handleImportDb`, the only consumer the capacity check was written for)
never invokes it: the same oversized document is imported successfully.
This exhibits the missing wiring (no call site of `validateImportSize`
exists in the repository, although the README advertises import size
validation). -/
theorem quota_guard_not_invoked (gen : ℕ → String) (now : ℕ) (st : AppState)
    (n : ℕ)
    (h : MAX_STORAGE_SIZE_KB * 1024 < jsByteSize (jsonStringify (bigDoc n))) :
    validateImportSize (bigDoc n) = .error
      ("Import too large: " ++
        toString (sizeKBRounded (jsByteSize (jsonStringify (bigDoc n)))) ++
        "KB (max " ++ toString MAX_STORAGE_SIZE_KB ++
        "KB). Remove some images or compress them.") ∧
    (handleImportDb gen now (.ok (bigDoc n)) st).2 = .imported := by
  constructor
  · unfold validateImportSize
    dsimp only
    rw [if_pos h]
  · have hholds : (migrateAndSanitize gen (bigDoc n)).holds = ["A"] := rfl
    simp [handleImportDb, hholds]

/-- C3 witness: a concrete document 1 byte over the ceiling is both
rejected by the (never-called) guard and accepted by the import path. -/
theorem quota_guard_not_invoked_witness :
    MAX_STORAGE_SIZE_KB * 1024 < jsByteSize (jsonStringify (bigDoc 4194305)) ∧
    (handleImportDb genW 0 (.ok (bigDoc 4194305)) stW).2 = .imported :=
  ⟨by rw [bigDoc_size]; decide,
   (quota_guard_not_invoked genW 0 stW 4194305
     (by rw [bigDoc_size]; decide)).2⟩

theorem normalizeHoldNameSafe_norm (v : Option JsonVal) :
    jsTrimCollapse (normalizeHoldNameSafe v) = normalizeHoldNameSafe v := by
  unfold normalizeHoldNameSafe
  exact jsTrimCollapse_idem _

theorem normalizeHoldNameSafe_str (h : String) (hne : h ≠ "")
    (hn : jsTrimCollapse h = h) :
    normalizeHoldNameSafe (some (.str h)) = h := by
  have ht : jsTruthy (.str h) = true := by simpa [jsTruthy] using hne
  unfold normalizeHoldNameSafe
  dsimp only
  rw [if_pos ht]
  exact hn

theorem sanitizeHoldList_elem_norm (v : JsonVal) :
    ∀ h ∈ sanitizeHoldList v, h ≠ "" ∧ jsTrimCollapse h = h := by
  intro h hh
  have hmem : h ∈ dedupCI (((jsArrElems v).map
      (fun x => normalizeHoldNameSafe (some x))).filter (fun s => s ≠ "")) :=
    (List.mem_insertionSort holdLe).mp hh
  have hcl := dedupCIGo_subset [] _ h hmem
  have hfl := List.mem_filter.mp hcl
  rcases List.mem_map.mp hfl.1 with ⟨x, -, hxe⟩
  refine ⟨by simpa using hfl.2, ?_⟩
  rw [← hxe]
  exact normalizeHoldNameSafe_norm (some x)

theorem dedupCIGo_eq_self (seen : List String) :
    ∀ l : List String,
      l.Pairwise (fun a b => jsToLower a ≠ jsToLower b) →
      (∀ h ∈ l, jsToLower h ∉ seen) → dedupCIGo seen l = l := by
  intro l
  induction l generalizing seen with
  | nil => intro _ _; rfl
  | cons a t ih =>
    intro hp hs
    unfold dedupCIGo
    rw [if_neg (hs a (List.mem_cons_self a t))]
    refine congrArg (a :: ·) (ih _ (List.pairwise_cons.mp hp).2 ?_)
    intro h hh hcon
    rcases List.mem_cons.mp hcon with hc | hc
    · exact (List.pairwise_cons.mp hp).1 h hh hc.symm
    · exact hs h (List.mem_cons_of_mem a hh) hc

theorem map_norm_eq_self (l : List String)
    (hl : ∀ h ∈ l, h ≠ "" ∧ jsTrimCollapse h = h) :
    l.map (fun x => normalizeHoldNameSafe (some (.str x))) = l := by
  induction l with
  | nil => rfl
  | cons a t ih =>
    have ha := hl a (List.mem_cons_self a t)
    rw [List.map_cons, normalizeHoldNameSafe_str a ha.1 ha.2,
      ih (fun h hh => hl h (List.mem_cons_of_mem a hh))]

theorem sanitizeHoldList_roundTrip (l : List String)
    (hl : ∀ h ∈ l, h ≠ "" ∧ jsTrimCollapse h = h)
    (hp : l.Pairwise (fun a b => jsToLower a ≠ jsToLower b))
    (hs : l.Sorted holdLe) :
    sanitizeHoldList (.arr (l.map .str)) = l := by
  unfold sanitizeHoldList
  dsimp only
  rw [show jsArrElems (.arr (l.map .str)) = l.map .str from rfl]
  rw [List.map_map]
  rw [show ((fun x => normalizeHoldNameSafe (some x)) ∘ JsonVal.str) =
    (fun x => normalizeHoldNameSafe (some (.str x))) from rfl]
  rw [map_norm_eq_self l hl]
  rw [List.filter_eq_self.mpr (fun a ha => by simpa using (hl a ha).1)]
  rw [show dedupCI l = l from dedupCIGo_eq_self [] l hp (by simp)]
  exact List.Sorted.insertionSort_eq hs

theorem sanitizeHoldList_sorted (v : JsonVal) :
    (sanitizeHoldList v).Sorted holdLe :=
  List.sorted_insertionSort holdLe _

theorem sanitizeHoldList_pairwise (v : JsonVal) :
    (sanitizeHoldList v).Pairwise (fun a b => jsToLower a ≠ jsToLower b) :=
  ((List.perm_insertionSort holdLe _).pairwise_iff
    (fun h => Ne.symm h)).mpr (dedupCIGo_pairwise [] _).2

theorem sanitizeHoldList_idem (v : JsonVal) :
    sanitizeHoldList (.arr ((sanitizeHoldList v).map .str)) =
      sanitizeHoldList v :=
  sanitizeHoldList_roundTrip _ (sanitizeHoldList_elem_norm v)
    (sanitizeHoldList_pairwise v) (sanitizeHoldList_sorted v)

theorem normalizeAngleValue_mem (v : Option JsonVal) :
    0 ≤ normalizeAngleValue v ∧ normalizeAngleValue v ≤ 90 := by
  unfold normalizeAngleValue
  dsimp only
  split
  all_goals first
    | exact clamp_mem _
    | exact clamp_matchParse_mem _
    | norm_num

theorem clamp_of_mem (q : ℚ) (h0 : 0 ≤ q) (h90 : q ≤ 90) :
    clamp q 0 90 = q := by
  unfold clamp jsMax jsMin
  split_ifs <;> linarith

theorem sanitizeAngle_some_spec (gen : ℕ → String) (ctr : ℕ) (a : JsonVal)
    (hs : List String) (sa : Angle) (ctr' : ℕ)
    (h : sanitizeAngle gen ctr a hs = (some sa, ctr')) :
    sa.hold ∈ hs ∧ sa.hold ≠ "" ∧ jsTrimCollapse sa.hold = sa.hold ∧
    0 ≤ sa.value ∧ sa.value ≤ 90 ∧
    (∀ d, sa.drawing = some d → jsStartsWith "data:image/" d = true) := by
  unfold sanitizeAngle at h
  dsimp only at h
  split at h
  · simp at h
  · rename_i hcond
    push_neg at hcond
    rw [Prod.mk.injEq] at h
    obtain ⟨h1, -⟩ := h
    injection h1 with h2
    subst h2
    refine ⟨hcond.2, hcond.1, normalizeHoldNameSafe_norm _,
      (normalizeAngleValue_mem _).1, (normalizeAngleValue_mem _).2, ?_⟩
    intro d hd
    dsimp only at hd
    rcases hg : jsGet a "drawing" with - | w
    · rw [hg] at hd; cases hd
    · rw [hg] at hd
      cases w <;> simp only at hd
      all_goals first
        | cases hd
        | (split at hd
           · rename_i hpre
             cases hd
             exact hpre
           · cases hd)

theorem sanitizeAngle_roundTrip (gen : ℕ → String) (ctr : ℕ)
    (hs : List String) (a : Angle)
    (hh : a.hold ∈ hs) (hne : a.hold ≠ "")
    (hn : jsTrimCollapse a.hold = a.hold)
    (hv0 : 0 ≤ a.value) (hv90 : a.value ≤ 90)
    (hid : jsTrim a.id ≠ "")
    (hd : ∀ d, a.drawing = some d → jsStartsWith "data:image/" d = true) :
    sanitizeAngle gen ctr (angleToJson a) hs = (some a, ctr) := by
  obtain ⟨i, ho, v, sw, dr⟩ := a
  dsimp only at hh hne hn hv0 hv90 hid hd
  rcases dr with - | d
  · cases sw
    · unfold sanitizeAngle
      dsimp only
      rw [show jsGet (angleToJson ⟨i, ho, v, Saw.main, none⟩) "hold"
        = some (.str ho) from rfl]
      rw [normalizeHoldNameSafe_str ho hne hn]
      show (if ho = "" ∨ ho ∉ hs then
          ((none : Option Angle),
            (if jsTrim i ≠ "" then (i, ctr) else (gen ctr, ctr + 1)).2)
        else (some (Angle.mk
            (if jsTrim i ≠ "" then (i, ctr) else (gen ctr, ctr + 1)).1
            ho (clamp v 0 90) Saw.main none),
          (if jsTrim i ≠ "" then (i, ctr) else (gen ctr, ctr + 1)).2))
        = (some (Angle.mk i ho v Saw.main none), ctr)
      rw [if_pos hid, clamp_of_mem v hv0 hv90,
        if_neg (by push_neg; exact ⟨hne, hh⟩)]
    · unfold sanitizeAngle
      dsimp only
      rw [show jsGet (angleToJson ⟨i, ho, v, Saw.stefan, none⟩) "hold"
        = some (.str ho) from rfl]
      rw [normalizeHoldNameSafe_str ho hne hn]
      show (if ho = "" ∨ ho ∉ hs then
          ((none : Option Angle),
            (if jsTrim i ≠ "" then (i, ctr) else (gen ctr, ctr + 1)).2)
        else (some (Angle.mk
            (if jsTrim i ≠ "" then (i, ctr) else (gen ctr, ctr + 1)).1
            ho (clamp v 0 90) Saw.stefan none),
          (if jsTrim i ≠ "" then (i, ctr) else (gen ctr, ctr + 1)).2))
        = (some (Angle.mk i ho v Saw.stefan none), ctr)
      rw [if_pos hid, clamp_of_mem v hv0 hv90,
        if_neg (by push_neg; exact ⟨hne, hh⟩)]
  · cases sw
    · unfold sanitizeAngle
      dsimp only
      rw [show jsGet (angleToJson ⟨i, ho, v, Saw.main, (some d)⟩) "hold"
        = some (.str ho) from rfl]
      rw [normalizeHoldNameSafe_str ho hne hn]
      show (if ho = "" ∨ ho ∉ hs then
          ((none : Option Angle),
            (if jsTrim i ≠ "" then (i, ctr) else (gen ctr, ctr + 1)).2)
        else (some (Angle.mk
            (if jsTrim i ≠ "" then (i, ctr) else (gen ctr, ctr + 1)).1
            ho (clamp v 0 90) Saw.main (if jsStartsWith "data:image/" d = true then some d else none)),
          (if jsTrim i ≠ "" then (i, ctr) else (gen ctr, ctr + 1)).2))
        = (some (Angle.mk i ho v Saw.main (some d)), ctr)
      rw [if_pos (hd d rfl)]
      rw [if_pos hid, clamp_of_mem v hv0 hv90,
        if_neg (by push_neg; exact ⟨hne, hh⟩)]
    · unfold sanitizeAngle
      dsimp only
      rw [show jsGet (angleToJson ⟨i, ho, v, Saw.stefan, (some d)⟩) "hold"
        = some (.str ho) from rfl]
      rw [normalizeHoldNameSafe_str ho hne hn]
      show (if ho = "" ∨ ho ∉ hs then
          ((none : Option Angle),
            (if jsTrim i ≠ "" then (i, ctr) else (gen ctr, ctr + 1)).2)
        else (some (Angle.mk
            (if jsTrim i ≠ "" then (i, ctr) else (gen ctr, ctr + 1)).1
            ho (clamp v 0 90) Saw.stefan (if jsStartsWith "data:image/" d = true then some d else none)),
          (if jsTrim i ≠ "" then (i, ctr) else (gen ctr, ctr + 1)).2))
        = (some (Angle.mk i ho v Saw.stefan (some d)), ctr)
      rw [if_pos (hd d rfl)]
      rw [if_pos hid, clamp_of_mem v hv0 hv90,
        if_neg (by push_neg; exact ⟨hne, hh⟩)]

theorem migrateLoop_spec (gen : ℕ → String) (hs : List String) :
    ∀ (l : List JsonVal) (ctr : ℕ) (ids : List String),
      ∀ a ∈ migrateLoop gen hs l ctr ids,
        a.hold ∈ hs ∧ a.hold ≠ "" ∧ jsTrimCollapse a.hold = a.hold ∧
        0 ≤ a.value ∧ a.value ≤ 90 ∧
        (∀ d, a.drawing = some d → jsStartsWith "data:image/" d = true) := by
  intro l
  induction l with
  | nil => intro ctr ids a ha; cases ha
  | cons x rest ih =>
    intro ctr ids a ha
    unfold migrateLoop at ha
    rcases hsa : sanitizeAngle gen ctr x hs with ⟨osa, ctr'⟩
    rw [hsa] at ha
    cases osa with
    | none => exact ih ctr' ids a ha
    | some sa =>
      dsimp only at ha
      by_cases hid : sa.id ∈ ids
      · rw [if_pos hid] at ha
        rcases List.mem_cons.mp ha with rfl | hmem
        · exact sanitizeAngle_some_spec gen ctr x hs sa ctr' hsa
        · exact ih _ _ a hmem
      · rw [if_neg hid] at ha
        rcases List.mem_cons.mp ha with rfl | hmem
        · exact sanitizeAngle_some_spec gen ctr x hs _ ctr' hsa
        · exact ih _ _ a hmem

theorem migrateLoop_roundTrip (gen : ℕ → String) (hs : List String) :
    ∀ (l : List Angle) (ctr : ℕ) (ids : List String),
      (∀ a ∈ l, ∀ c, sanitizeAngle gen c (angleToJson a) hs = (some a, c)) →
      (l.map (fun a => a.id)).Nodup →
      (∀ a ∈ l, a.id ∉ ids) →
      migrateLoop gen hs (l.map angleToJson) ctr ids = l := by
  intro l
  induction l with
  | nil => intro ctr ids _ _ _; rfl
  | cons a t ih =>
    intro ctr ids hrt hnd hids
    rw [List.map_cons]
    unfold migrateLoop
    rw [hrt a (List.mem_cons_self a t) ctr]
    dsimp only
    rw [if_neg (hids a (List.mem_cons_self a t))]
    refine congrArg (a :: ·) (ih ctr (a.id :: ids)
      (fun b hb => hrt b (List.mem_cons_of_mem a hb)) ?_ ?_)
    · exact (List.nodup_cons.mp (by simpa using hnd)).2
    · intro b hb hc
      rcases List.mem_cons.mp hc with hc1 | hc2
      · have : a.id ∉ t.map (fun x => x.id) :=
          (List.nodup_cons.mp (by simpa using hnd)).1
        exact this (hc1 ▸ List.mem_map_of_mem _ hb)
      · exact hids b (List.mem_cons_of_mem a hb) hc2

theorem imgForm (raw : JsonVal) (holds : List String) :
    holds.filterMap (fun h =>
      match jsGet raw h with
      | some (.str v) =>
        if jsStartsWith "data:image/" v then some (h, v) else none
      | _ => none)
    = holds.filterMap (fun h => (imgAt raw h).map (fun v => (h, v))) := by
  refine List.filterMap_congr (fun h _ => ?_)
  unfold imgAt
  rcases jsGet raw h with - | w
  · rfl
  · cases w <;> simp only
    · rfl
    · rfl
    · rfl
    · split <;> rfl
    · rfl
    · rfl

theorem imgAt_some_prefix (raw : JsonVal) (h v : String)
    (hv : imgAt raw h = some v) : jsStartsWith "data:image/" v = true := by
  unfold imgAt at hv
  rcases hg : jsGet raw h with - | w
  · rw [hg] at hv; cases hv
  · rw [hg] at hv
    cases w <;> simp only at hv
    all_goals first
      | cases hv
      | (split at hv
         · rename_i hp
           cases hv
           exact hp
         · cases hv)

theorem lookup_filterMap_none (t : List String) (g : String → Option String)
    (k : String) (hk : k ∉ t) :
    ((t.filterMap (fun h => (g h).map (fun v => (h, v)))).lookup k) = none := by
  induction t with
  | nil => rfl
  | cons a s ih =>
    have hka : k ≠ a := fun c => hk (c ▸ List.mem_cons_self a s)
    have hks : k ∉ s := fun c => hk (List.mem_cons_of_mem a c)
    rw [List.filterMap_cons]
    rcases g a with - | v
    · exact ih hks
    · have hbk : (k == a) = false := beq_eq_false_iff_ne.mpr hka
      simp [List.lookup, hbk, ih hks]

theorem lookup_filterMap_mem (t : List String) (g : String → Option String)
    (k : String) (hnd : t.Nodup) (hk : k ∈ t) :
    ((t.filterMap (fun h => (g h).map (fun v => (h, v)))).lookup k) = g k := by
  induction t with
  | nil => cases hk
  | cons a s ih =>
    rw [List.filterMap_cons]
    by_cases hka : k = a
    · subst hka
      have hks : k ∉ s := (List.nodup_cons.mp hnd).1
      rcases hg : g k with - | v
      · simpa [hg] using lookup_filterMap_none s g k hks
      · simp [List.lookup, hg]
    · have hks : k ∈ s := by
        rcases List.mem_cons.mp hk with h1 | h2
        · exact absurd h1 hka
        · exact h2
      have hbk : (k == a) = false := beq_eq_false_iff_ne.mpr hka
      have ihs := ih (List.nodup_cons.mp hnd).2 hks
      rcases g a with - | v
      · exact ihs
      · simp [List.lookup, hbk, ihs]

theorem pairwise_lowNe_nodup (l : List String)
    (hp : l.Pairwise (fun a b => jsToLower a ≠ jsToLower b)) : l.Nodup :=
  hp.imp (fun hne heq => hne (congrArg jsToLower heq))

theorem holdImages_roundTrip (holds : List String) (g : String → Option String)
    (hnd : holds.Nodup)
    (hpre : ∀ h v, g h = some v → jsStartsWith "data:image/" v = true) :
    holds.filterMap (fun h =>
      (imgAt (.obj ((holds.filterMap (fun h' =>
        (g h').map (fun v => (h', v)))).map (fun p => (p.1, .str p.2)))) h).map
        (fun v => (h, v)))
    = holds.filterMap (fun h => (g h).map (fun v => (h, v))) := by
  refine List.filterMap_congr (fun h hh => ?_)
  have hlk : ((holds.filterMap (fun h' =>
      (g h').map (fun v => (h', v)))).map (fun p => (p.1, JsonVal.str p.2))).lookup h
      = ((holds.filterMap (fun h' => (g h').map (fun v => (h', v)))).lookup h).map .str := by
    generalize (holds.filterMap (fun h' => (g h').map (fun v => (h', v)))) = m
    induction m with
    | nil => rfl
    | cons p rest ihm =>
      rcases hb : (h == p.1) with - | -
      · simp [List.lookup, hb, ihm]
      · simp [List.lookup, hb]
  have hmem := lookup_filterMap_mem holds g h hnd hh
  show (imgAt _ h).map (fun v => (h, v)) = _
  unfold imgAt
  rw [show jsGet (JsonVal.obj ((holds.filterMap (fun h' =>
      (g h').map (fun v => (h', v)))).map (fun p => (p.1, JsonVal.str p.2)))) h
    = ((holds.filterMap (fun h' =>
      (g h').map (fun v => (h', v)))).map (fun p => (p.1, JsonVal.str p.2))).lookup h
    from rfl]
  rw [hlk, hmem]
  rcases hg : g h with - | v
  · rfl
  · simp [hpre h v hg]

theorem migrate_snapshot_roundTrip (gen : ℕ → String) (S : Snapshot)
    (g : String → Option String)
    (hnorm : ∀ h ∈ S.holds, h ≠ "" ∧ jsTrimCollapse h = h)
    (hpair : S.holds.Pairwise (fun a b => jsToLower a ≠ jsToLower b))
    (hsort : S.holds.Sorted holdLe)
    (hang : ∀ a ∈ S.angles, a.hold ∈ S.holds ∧ a.hold ≠ "" ∧
      jsTrimCollapse a.hold = a.hold ∧ 0 ≤ a.value ∧ a.value ≤ 90 ∧
      jsTrim a.id ≠ "" ∧
      (∀ d, a.drawing = some d → jsStartsWith "data:image/" d = true))
    (hnd : (S.angles.map (fun a => a.id)).Nodup)
    (hpre : ∀ h v, g h = some v → jsStartsWith "data:image/" v = true)
    (himg : S.holdImages = S.holds.filterMap
      (fun h => (g h).map (fun v => (h, v)))) :
    migrateAndSanitize gen (snapshotToJson S) =
      Snapshot.mk LS_VERSION S.holds S.angles S.holdImages := by
  obtain ⟨ver, holds, angles, imgs⟩ := S
  dsimp only at hnorm hpair hsort hang hnd himg ⊢
  show Snapshot.mk LS_VERSION
      (sanitizeHoldList (.arr (holds.map .str)))
      (migrateLoop gen (sanitizeHoldList (.arr (holds.map .str)))
        (angles.map angleToJson) 0 [])
      ((sanitizeHoldList (.arr (holds.map .str))).filterMap (fun h =>
        match jsGet (.obj (imgs.map (fun p => (p.1, .str p.2)))) h with
        | some (.str v) =>
          if jsStartsWith "data:image/" v then some (h, v) else none
        | _ => none))
    = Snapshot.mk LS_VERSION holds angles imgs
  rw [sanitizeHoldList_roundTrip holds hnorm hpair hsort]
  rw [migrateLoop_roundTrip gen holds angles 0 []
    (fun a ha c => sanitizeAngle_roundTrip gen c holds a
      (hang a ha).1 (hang a ha).2.1 (hang a ha).2.2.1 (hang a ha).2.2.2.1
      (hang a ha).2.2.2.2.1 (hang a ha).2.2.2.2.2.1 (hang a ha).2.2.2.2.2.2)
    hnd (by simp)]
  rw [imgForm]
  rw [himg]
  exact congrArg (Snapshot.mk LS_VERSION holds angles)
    (holdImages_roundTrip holds g (pairwise_lowNe_nodup holds hpair) hpre)

/-- C2: the Migrator is idempotent. Re-migrating the JSON embedding of a
migrated snapshot reproduces it exactly (same holds, angles with ids,
cover images, version), provided the identifier generator behaved as a
fresh-id source on the first pass: the produced angle ids are pairwise
distinct and non-blank (guaranteed up to astronomically unlikely
collisions by `crypto.randomUUID`). -/
theorem migrate_idempotent (gen : ℕ → String) (x : JsonVal)
    (h1 : ((migrateAndSanitize gen x).angles.map (fun a => a.id)).Nodup)
    (h2 : ∀ a ∈ (migrateAndSanitize gen x).angles, jsTrim a.id ≠ "") :
    migrateAndSanitize gen (snapshotToJson (migrateAndSanitize gen x)) =
      migrateAndSanitize gen x := by
  have hnorm : ∀ h ∈ (migrateAndSanitize gen x).holds,
      h ≠ "" ∧ jsTrimCollapse h = h := sanitizeHoldList_elem_norm _
  have hpair : ((migrateAndSanitize gen x).holds).Pairwise
      (fun a b => jsToLower a ≠ jsToLower b) := sanitizeHoldList_pairwise _
  have hsort : ((migrateAndSanitize gen x).holds).Sorted holdLe :=
    sanitizeHoldList_sorted _
  have hspec : ∀ a ∈ (migrateAndSanitize gen x).angles,
      a.hold ∈ (migrateAndSanitize gen x).holds ∧ a.hold ≠ "" ∧
      jsTrimCollapse a.hold = a.hold ∧ 0 ≤ a.value ∧ a.value ≤ 90 ∧
      (∀ d, a.drawing = some d → jsStartsWith "data:image/" d = true) :=
    fun a ha => migrateLoop_spec gen _ _ 0 [] a ha
  have himg : (migrateAndSanitize gen x).holdImages =
      ((migrateAndSanitize gen x).holds).filterMap
        (fun h => (imgAt (rawImagesOf x) h).map (fun v => (h, v))) :=
    imgForm _ _
  calc migrateAndSanitize gen (snapshotToJson (migrateAndSanitize gen x))
      = Snapshot.mk LS_VERSION (migrateAndSanitize gen x).holds
          (migrateAndSanitize gen x).angles
          (migrateAndSanitize gen x).holdImages :=
        migrate_snapshot_roundTrip gen (migrateAndSanitize gen x)
          (imgAt (rawImagesOf x)) hnorm hpair hsort
          (fun a ha => ⟨(hspec a ha).1, (hspec a ha).2.1, (hspec a ha).2.2.1,
            (hspec a ha).2.2.2.1, (hspec a ha).2.2.2.2.1, h2 a ha,
            (hspec a ha).2.2.2.2.2⟩)
          h1 (fun h v hv => imgAt_some_prefix _ h v hv) himg
    _ = migrateAndSanitize gen x := rfl


/-- C2 witness: idempotence at a concrete messy document, with the
freshness hypotheses checked by computation. -/
theorem migrate_idempotent_witness :
    (((migrateAndSanitize genW messyDoc).angles.map (fun a => a.id)).Nodup) ∧
    migrateAndSanitize genW (snapshotToJson (migrateAndSanitize genW messyDoc))
      = migrateAndSanitize genW messyDoc :=
  ⟨by decide, migrate_idempotent genW messyDoc (by decide) (by decide)⟩

end AnglesProto
